import Mathlib

/-!
Shallow embedding of the frame-synthesis engine of `src/video_creator.py`
(class `VideoCreator`): Ken Burns motion synthesis, color grading,
transition blending and the frame-sequencing loop of `create_video`.

Modelling conventions:
* a decoded 8-bit raster buffer (`numpy` array of shape `height × width × 3`)
  is an `Img`: two dimensions plus a total pixel function
  `ℕ → ℕ → Fin 3 → ℕ` (channel order blue, green, red as in OpenCV);
* Python float arithmetic is idealized as exact arithmetic (`ℚ` where the
  source only adds, multiplies and divides; `ℝ` for the color-grade pipeline,
  whose source uses `np.sqrt` and `np.power(·, 1.2)`);
* `int(x)` (truncation toward zero) is `pyInt`;
* `cv2.resize` is modelled by a dimension-faithful resampler `cvResize`
  (the claims only rely on the documented dimensional contract of the
  external library, never on interpolated pixel content);
* `cv2.GaussianBlur` is modelled as a dimension-preserving transform
  (`gaussianBlurModel`); no claim inspects blurred pixel content;
* exceptions are `Except` values; `cv2.imread` is an oracle parameter
  `String → Option Img`; `random.choice` over the Ken Burns catalog is an
  oracle parameter `pick : ℕ → String × Option String` (scene index ↦ drawn
  `(zoom_direction, pan_direction)`).
-/

/-- An 8-bit raster buffer: `height × width × 3`, pixel values in `ℕ`. -/
@[ext]
structure Img where
  height : ℕ
  width : ℕ
  data : ℕ → ℕ → Fin 3 → ℕ

/-- Default image used with `List.getD`. -/
def defaultImg : Img := ⟨0, 0, fun _ _ _ => 0⟩

/-- Python `int()` applied to a rational: truncation toward zero. -/
def pyInt (q : ℚ) : ℤ := if 0 ≤ q then ⌊q⌋ else -⌊-q⌋

/-- The smoothstep ease used throughout the source: `t * t * (3 - 2 * t)`
(lines 79, 139, 219, 246 of `src/video_creator.py`). -/
def smoothstep (t : ℚ) : ℚ := t * t * (3 - 2 * t)

/-- Linear interpolation, used to state the spec's `lerp` claims. -/
def lerp (a b t : ℚ) : ℚ := a + (b - a) * t

/-- Model of `cv2.resize(img, (w, h))`: returns a buffer of shape `h × w`.
Pixel content stands in for the external library's resampling (no claim
depends on interpolated content, only on the dimensional contract). -/
def cvResize (img : Img) (w h : ℕ) : Img :=
  ⟨h, w, fun y x c => img.data (y * img.height / h) (x * img.width / w) c⟩

/-- Model of the numpy slice `img[y0 : y0 + h, x0 : x0 + w]` for the
offsets arising in `apply_ken_burns`: the slice is clamped to the buffer,
so its shape is `min h (height - y0) × min w (width - x0)`.  Negative
offsets are clamped to `0` (the theorems about Ken Burns restrict to
`1 ≤ zoom_amount`, where the source's offsets are provably nonnegative). -/
def cropImg (img : Img) (y0 x0 : ℤ) (h w : ℕ) : Img :=
  ⟨min h (img.height - y0.toNat), min w (img.width - x0.toNat),
   fun y x c => img.data (y0.toNat + y) (x0.toNat + x) c⟩

/-- The per-frame zoom scale of `apply_ken_burns`
(`src/video_creator.py` lines 75-85): eased time
`t_smooth = smoothstep (i / (num_frames - 1))` (with `t = 0` when
`num_frames ≤ 1`), then `1 + (zoom_amount - 1) * t_smooth` for zoom `'in'`
and `zoom_amount - (zoom_amount - 1) * t_smooth` otherwise. -/
def kenBurnsScale (zoom_direction : String) (zoom_amount : ℚ) (n i : ℕ) : ℚ :=
  let ts := smoothstep (if 1 < n then (i : ℚ) / ((n : ℚ) - 1) else 0)
  if zoom_direction = "in" then 1 + (zoom_amount - 1) * ts
  else zoom_amount - (zoom_amount - 1) * ts

/-- The shape-correction step of `apply_ken_burns`
(`src/video_creator.py` lines 115-117): if the cropped window's shape
drifted from `(h, w)`, resize it back. -/
def shapeFix (h w : ℕ) (cropped : Img) : Img :=
  if cropped.height = h ∧ cropped.width = w then cropped
  else cvResize cropped w h

/-- One frame of the Ken Burns loop body (`src/video_creator.py` lines
75-119): resize by the eased scale, pan-crop a `height × width` window,
and correct the shape by a final resize if rounding made it drift. -/
def kenBurnsFrame (img : Img) (n : ℕ) (zoom_direction : String)
    (zoom_amount : ℚ) (pan_direction : Option String) (i : ℕ) : Img :=
  let ts := smoothstep (if 1 < n then (i : ℚ) / ((n : ℚ) - 1) else 0)
  let scale := kenBurnsScale zoom_direction zoom_amount n i
  let nw := (pyInt ((img.width : ℚ) * scale)).toNat
  let nh := (pyInt ((img.height : ℚ) * scale)).toNat
  let resized := cvResize img nw nh
  let pxy : ℤ × ℤ :=
    if pan_direction = some "left" then
      (pyInt (((nw : ℚ) - (img.width : ℚ)) * ts), 0)
    else if pan_direction = some "right" then
      (pyInt (((nw : ℚ) - (img.width : ℚ)) * (1 - ts)), 0)
    else if pan_direction = some "up" then
      (0, pyInt (((nh : ℚ) - (img.height : ℚ)) * ts))
    else if pan_direction = some "down" then
      (0, pyInt (((nh : ℚ) - (img.height : ℚ)) * (1 - ts)))
    else (((nw : ℤ) - (img.width : ℤ)) / 2, ((nh : ℤ) - (img.height : ℤ)) / 2)
  shapeFix img.height img.width (cropImg resized pxy.2 pxy.1 img.height img.width)

/-- `VideoCreator.apply_ken_burns` (`src/video_creator.py` lines 60-121):
`num_frames` frames produced by the loop `for i in range(num_frames)`. -/
def apply_ken_burns (img : Img) (num_frames : ℕ) (zoom_direction : String)
    (zoom_amount : ℚ) (pan_direction : Option String) : List Img :=
  (List.range num_frames).map
    (kenBurnsFrame img num_frames zoom_direction zoom_amount pan_direction)

/-- OpenCV `saturate_cast<uint8>` of a float: round to nearest, clamp to
`[0, 255]`.  OpenCV rounds ties to even; the model rounds ties up
(Mathlib `round`); no claim depends on tie behaviour. -/
def sat8 (q : ℚ) : ℕ := (min 255 (round q)).toNat

/-- `cv2.addWeighted(a, wa, b, wb, 0)`: pixel-wise `wa * a + wb * b`,
rounded and saturated to 8 bits. -/
def addWeighted (a : Img) (wa : ℚ) (b : Img) (wb : ℚ) : Img :=
  ⟨a.height, a.width,
   fun y x c => sat8 (wa * (a.data y x c : ℚ) + wb * (b.data y x c : ℚ))⟩

/-- The blend weight of the transitions (`src/video_creator.py` lines
217-219): `t = i / (num_frames - 1)` when `num_frames > 1` else `t = 1`,
then `alpha = smoothstep t`. -/
def crossAlpha (n i : ℕ) : ℚ :=
  smoothstep (if 1 < n then (i : ℚ) / ((n : ℚ) - 1) else 1)

/-- One `crossfade` frame (`src/video_creator.py` lines 216-221). -/
def crossfadeFrame (img1 img2 : Img) (n i : ℕ) : Img :=
  addWeighted img1 (1 - crossAlpha n i) img2 (crossAlpha n i)

/-- The wipe boundary of `wipe_left` (`src/video_creator.py` lines
226-227): `wipe_x = int(width * t)` with the RAW (un-eased) time `t`. -/
def wipeX (w n i : ℕ) : ℕ :=
  (pyInt ((w : ℚ) * (if 1 < n then (i : ℚ) / ((n : ℚ) - 1) else 1))).toNat

/-- One `wipe_left` frame (`src/video_creator.py` lines 223-230):
copy `img1`, overwrite columns `x < wipe_x` with `img2`. -/
def wipeFrame (img1 img2 : Img) (n i : ℕ) : Img :=
  ⟨img1.height, img1.width,
   fun y x c => if x < wipeX img1.width n i then img2.data y x c
                else img1.data y x c⟩

/-- Model of `cv2.GaussianBlur(img, (k, k), 0)`: a dimension-preserving
transform of the external library.  Only its dimensional behaviour is
relied on by the claims (frame counts), so pixel content passes through. -/
def gaussianBlurModel (img : Img) (k : ℤ) : Img :=
  ⟨img.height, img.width, fun y x c => img.data y x c⟩

/-- One `zoom_blur` frame (`src/video_creator.py` lines 232-248):
triangular blur kernel from the raw time, made odd if positive and even,
then crossfade of the (possibly blurred) `img1` with `img2`. -/
def zoomBlurFrame (img1 img2 : Img) (n i : ℕ) : Img :=
  let t : ℚ := if 1 < n then (i : ℚ) / ((n : ℚ) - 1) else 1
  let blur0 := pyInt (15 * (1 - |t - 1/2| * 2))
  let blurAmount := if 0 < blur0 ∧ blur0 % 2 = 0 then blur0 + 1 else blur0
  let img1b := if 0 < blurAmount then gaussianBlurModel img1 blurAmount else img1
  addWeighted img1b (1 - crossAlpha n i) img2 (crossAlpha n i)

/-- `VideoCreator.create_dynamic_transition` (`src/video_creator.py` lines
208-250): the `if`/`elif` chain on `transition_type`; an unrecognized type
falls through all branches and returns the initial empty `frames` list. -/
def create_dynamic_transition (img1 img2 : Img) (num_frames : ℕ)
    (transition_type : String) : List Img :=
  if transition_type = "crossfade" then
    (List.range num_frames).map (crossfadeFrame img1 img2 num_frames)
  else if transition_type = "wipe_left" then
    (List.range num_frames).map (wipeFrame img1 img2 num_frames)
  else if transition_type = "zoom_blur" then
    (List.range num_frames).map (zoomBlurFrame img1 img2 num_frames)
  else []

/-- The per-channel style section of `apply_cinematic_color_grade`
(`src/video_creator.py` lines 170-191), acting pixel-wise on a normalized
channel value `v` (channel order: 0 = blue, 1 = green, 2 = red):
`warm` gains (0.9, 1.05, 1.1); `cool` gains (1.2, 1.0, 0.9);
`vintage` is `v * 0.8 + 0.2` then green `× 0.95`;
`cyberpunk` is `v ** 1.2` then blue `× 1.3`, red `× 1.2`;
any other style name falls through the `if`/`elif` chain unchanged. -/
noncomputable def styleTransform (style : String) (c : Fin 3) (v : ℝ) : ℝ :=
  if style = "warm" then
    v * (if c = 0 then 9/10 else if c = 1 then 21/20 else 11/10)
  else if style = "cool" then
    v * (if c = 0 then 6/5 else if c = 1 then 1 else 9/10)
  else if style = "vintage" then
    (v * (4/5) + 1/5) * (if c = 1 then 19/20 else 1)
  else if style = "cyberpunk" then
    (v ^ ((6 : ℝ)/5)) * (if c = 0 then 13/10 else if c = 2 then 6/5 else 1)
  else v

/-- Squared distance of pixel `(y, x)` from the integer center
`(h / 2, w / 2)`, as in `src/video_creator.py` lines 195-198
(`(x - center_x) ** 2 + (y - center_y) ** 2`). -/
def distSq (h w y x : ℕ) : ℕ :=
  ((x : ℤ) - ((w / 2 : ℕ) : ℤ)).natAbs ^ 2 +
    ((y : ℤ) - ((h / 2 : ℕ) : ℤ)).natAbs ^ 2

/-- The maximal squared center distance over the `h × w` pixel grid.
`vignette.max()` in the source is the maximum of `sqrt (distSq …)`, which
equals `Real.sqrt (maxDistSq …)` since `sqrt` is monotone (see the lemma
`sqrt_maxDistSq_eq_sup`). -/
def maxDistSq (h w : ℕ) : ℕ :=
  (Finset.range h ×ˢ Finset.range w).sup fun p => distSq h w p.1 p.2

/-- The radial vignette multiplier of `apply_cinematic_color_grade`
(`src/video_creator.py` lines 193-202):
`1 - (sqrt distSq / vignette.max()) * 0.3`, independent of the style. -/
noncomputable def vignetteFactor (h w y x : ℕ) : ℝ :=
  1 - (Real.sqrt (distSq h w y x) / Real.sqrt (maxDistSq h w)) * (3/10)

/-- The pre-quantization float value of `apply_cinematic_color_grade` at
pixel `(y, x)`, channel `c`: the 8-bit value normalized by `255`, passed
through the style section, then multiplied by the vignette. -/
noncomputable def gradePre (img : Img) (style : String) (y x : ℕ) (c : Fin 3) : ℝ :=
  styleTransform style c ((img.data y x c : ℝ) / 255) *
    vignetteFactor img.height img.width y x

/-- Final quantization of `apply_cinematic_color_grade`
(`src/video_creator.py` lines 204-206): `np.clip(v, 0, 1)`, multiply by
`255`, then `astype(np.uint8)` (truncation toward zero; values here are
nonnegative, so truncation is `Int.floor`). -/
noncomputable def quantize8 (v : ℝ) : ℕ := (⌊min 1 (max 0 v) * 255⌋).toNat

/-- `VideoCreator.apply_cinematic_color_grade`
(`src/video_creator.py` lines 161-206). -/
noncomputable def apply_cinematic_color_grade (img : Img) (style : String) : Img :=
  ⟨img.height, img.width, fun y x c => quantize8 (gradePre img style y x c)⟩

/-- The errors `create_video` can raise while loading: the `ValueError`
of `load_image` (the spec's `LoadError`), carrying the offending path, and
the `IndexError` of `images[0]` on an empty input list. -/
inductive VideoError where
  | loadError (path : String)
  | emptyInput
deriving DecidableEq

/-- `VideoCreator.load_image` (`src/video_creator.py` lines 30-35):
`cv2.imread` (the oracle `imread`) returning `None` raises a `ValueError`
naming the path. -/
def load_image (imread : String → Option Img) (path : String) :
    Except VideoError Img :=
  match imread path with
  | none => .error (.loadError path)
  | some img => .ok img

/-- The loading loop of `create_video` (`src/video_creator.py` lines
266-275): load each path in order, color-grade it if `use_color_grade`,
and abort at the first failure. -/
noncomputable def loadImages (imread : String → Option Img)
    (use_color_grade : Bool) (color_style : String) :
    List String → Except VideoError (List Img)
  | [] => .ok []
  | p :: rest =>
    match load_image imread p with
    | .error e => .error e
    | .ok img =>
      let img' := if use_color_grade then apply_cinematic_color_grade img color_style
                  else img
      match loadImages imread use_color_grade color_style rest with
      | .error e => .error e
      | .ok imgs => .ok (img' :: imgs)

/-- `VideoCreator.resize_to_match` (`src/video_creator.py` lines 37-58)
with `target_size = None` as called from `create_video`: every image whose
shape differs from the first image's shape is resized to it. -/
def resize_to_match (images : List Img) : List Img :=
  match images with
  | [] => []
  | i0 :: _ =>
    images.map fun im =>
      if im.height = i0.height ∧ im.width = i0.width then im
      else cvResize im i0.width i0.height

/-- The per-scene frame list of `create_video` (`src/video_creator.py`
lines 307-317): Ken Burns frames with the drawn direction pair and
`zoom_amount = 1.15`, or `scene_frames` copies of the static image. -/
def sceneFramesList (use_ken_burns : Bool) (pick : ℕ → String × Option String)
    (idx sf : ℕ) (img : Img) : List Img :=
  if use_ken_burns then
    apply_ken_burns img sf (pick idx).1 (23/20) (pick idx).2
  else List.replicate sf img

/-- The frame-emission loop of `create_video` (`src/video_creator.py`
lines 303-333): for each scene, its scene frames, followed by a transition
to the next image when one exists. -/
def assembleFrames (use_ken_burns : Bool) (pick : ℕ → String × Option String)
    (transition_type : String) (sf tf : ℕ) : ℕ → List Img → List Img
  | _, [] => []
  | idx, img :: rest =>
    sceneFramesList use_ken_burns pick idx sf img ++
      (match rest with
       | [] => []
       | nxt :: _ => create_dynamic_transition img nxt tf transition_type) ++
      assembleFrames use_ken_burns pick transition_type sf tf (idx + 1) rest

/-- `VideoCreator.create_video` (`src/video_creator.py` lines 252-350),
returning the ordered list of frames pushed to the `VideoWriter` sink.
`fps` and `transition_duration` are the constructor arguments
(`self.transition_frames = int(fps * transition_duration)`, line 19);
`scene_frames = int(fps * scene_duration)` (line 290).  An empty input
list raises `IndexError` at `images[0]` (line 281), modelled as
`.error .emptyInput`. -/
noncomputable def create_video (imread : String → Option Img)
    (image_paths : List String) (fps : ℕ)
    (scene_duration transition_duration : ℚ)
    (use_ken_burns use_color_grade : Bool)
    (color_style transition_type : String)
    (pick : ℕ → String × Option String) : Except VideoError (List Img) :=
  match loadImages imread use_color_grade color_style image_paths with
  | .error e => .error e
  | .ok imgs =>
    match resize_to_match imgs with
    | [] => .error .emptyInput
    | i0 :: rest =>
      let sf := (pyInt ((fps : ℚ) * scene_duration)).toNat
      let tf := (pyInt ((fps : ℚ) * transition_duration)).toNat
      .ok (assembleFrames use_ken_burns pick transition_type sf tf 0 (i0 :: rest))

/-- The frames that have reached the encoder sink by the end of the call:
all generated frames on success, none when the run aborted during loading
(the `VideoWriter` is only created after every image has been loaded,
`src/video_creator.py` lines 284-287). -/
def writtenFrames : Except VideoError (List Img) → List Img
  | .ok fs => fs
  | .error _ => []

/-- A float raster buffer of the allocation model: like `Img` but with
real-valued channels, so uint8 buffers (integer-valued) and the float32
intermediates of the color grade live in one heap. -/
@[ext]
structure BufImg where
  height : ℕ
  width : ℕ
  data : ℕ → ℕ → Fin 3 → ℝ

/-- Default buffer used with `List.getD` in the allocation model. -/
def defaultBuf : BufImg := ⟨0, 0, fun _ _ _ => 0⟩

/-- Pixel-wise map over a buffer (same shape, transformed channels). -/
def bufPixMap (b : BufImg) (f : ℕ → ℕ → Fin 3 → ℝ → ℝ) : BufImg :=
  ⟨b.height, b.width, fun y x c => f y x c (b.data y x c)⟩

/-- A uint8 `Img` viewed as a heap buffer (integer-valued reals). -/
noncomputable def bufOfImg (img : Img) : BufImg :=
  ⟨img.height, img.width, fun y x c => (img.data y x c : ℝ)⟩

/-- Allocation model of `apply_cinematic_color_grade`: the heap is a list
of buffers (slot index = object identity); the call reads the argument at
slot `i` and mirrors the source statement by statement:
`img_float = img.astype(np.float32) / 255.0` COPIES into a fresh slot;
the `warm`/`cool` branches mutate that slot in place (`*=`);
the `vintage`/`cyberpunk` branches rebind `img_float` to a freshly
allocated buffer (their net pixel effect is `styleTransform`);
the vignette loop mutates `img_float` in place;
`np.clip` allocates the clipped buffer; `( * 255).astype(np.uint8)`
allocates the returned result.  The call returns the final heap together
with the slot index of the result. -/
noncomputable def gradeHeapRun (heap : List BufImg) (i : ℕ) (style : String) :
    List BufImg × ℕ :=
  let img := heap.getD i defaultBuf
  let heap1 := heap ++ [bufPixMap img (fun _ _ _ v => v / 255)]
  let p2 : List BufImg × ℕ :=
    if style = "warm" ∨ style = "cool" then
      (heap1.set heap.length
        (bufPixMap (heap1.getD heap.length defaultBuf)
          (fun _ _ c v => styleTransform style c v)), heap.length)
    else if style = "vintage" ∨ style = "cyberpunk" then
      (heap1 ++ [bufPixMap (heap1.getD heap.length defaultBuf)
          (fun _ _ c v => styleTransform style c v)], heap1.length)
    else (heap1, heap.length)
  let heap3 := p2.1.set p2.2
    (bufPixMap (p2.1.getD p2.2 defaultBuf)
      (fun y x _ v => v * vignetteFactor img.height img.width y x))
  let heap4 := heap3 ++ [bufPixMap (heap3.getD p2.2 defaultBuf)
      (fun _ _ _ v => min 1 (max 0 v))]
  let heap5 := heap4 ++ [bufPixMap (heap4.getD heap3.length defaultBuf)
      (fun _ _ _ v => ((⌊v * 255⌋.toNat : ℕ) : ℝ))]
  (heap5, heap4.length)

/-- Concrete 2 × 2 constant image (pixel value 5) for witnesses. -/
def testImgA : Img := ⟨2, 2, fun _ _ _ => 5⟩

/-- Concrete 2 × 2 constant image (pixel value 7) for witnesses. -/
def testImgB : Img := ⟨2, 2, fun _ _ _ => 7⟩

/-- Concrete all-zero 2 × 2 image. -/
def zeroImg : Img := ⟨2, 2, fun _ _ _ => 0⟩

/-- Concrete 1 × 10 images for the wipe counterexample. -/
def wipeImgA : Img := ⟨1, 10, fun _ _ _ => 0⟩

/-- Second concrete 1 × 10 image for the wipe counterexample. -/
def wipeImgB : Img := ⟨1, 10, fun _ _ _ => 7⟩

/-- Concrete 1 × 1 images for crossfade witnesses. -/
def fadeImgA : Img := ⟨1, 1, fun _ _ _ => 10⟩

/-- Second concrete 1 × 1 image for crossfade witnesses. -/
def fadeImgB : Img := ⟨1, 1, fun _ _ _ => 200⟩

/-- Concrete decode oracle: every path decodes to `testImgA`. -/
def imreadAll : String → Option Img := fun _ => some testImgA

/-- Concrete decode oracle failing exactly on `"bad.png"`. -/
def imreadBad : String → Option Img :=
  fun p => if p = "bad.png" then none else some testImgA

/-- Concrete Ken Burns direction oracle (always zoom in, no pan). -/
def pickIn : ℕ → String × Option String := fun _ => ("in", none)

/-- The spec's version of a `wipe_left` frame, following the spec words
"overwrite the left t'·width columns … where t' is the eased time
t²(3−2t)": stated only to be compared with the source's `wipeFrame`,
which uses the raw time. -/
def wipeFrameSpecEased (img1 img2 : Img) (n i : ℕ) : Img :=
  ⟨img1.height, img1.width,
   fun y x c =>
     if x < (pyInt ((img1.width : ℚ) *
         smoothstep (if 1 < n then (i : ℚ) / ((n : ℚ) - 1) else 1))).toNat
     then img2.data y x c else img1.data y x c⟩

theorem smoothstep_zero : smoothstep 0 = 0 := by norm_num [smoothstep]

theorem smoothstep_one : smoothstep 1 = 1 := by norm_num [smoothstep]

theorem smoothstep_mem (t : ℚ) (h0 : 0 ≤ t) (h1 : t ≤ 1) :
    0 ≤ smoothstep t ∧ smoothstep t ≤ 1 := by
  constructor
  · have h2 : 0 ≤ 3 - 2 * t := by linarith
    have := mul_nonneg (mul_nonneg h0 h0) h2
    simpa [smoothstep] using this
  · have key : 0 ≤ (1 - t) * (1 - t) * (1 + 2 * t) :=
      mul_nonneg (mul_nonneg (sub_nonneg.2 h1) (sub_nonneg.2 h1))
        (by linarith : (0 : ℚ) ≤ 1 + 2 * t)
    simp only [smoothstep]
    nlinarith [key]

theorem shapeFix_shape (h w : ℕ) (cropped : Img) :
    (shapeFix h w cropped).height = h ∧ (shapeFix h w cropped).width = w := by
  unfold shapeFix
  split
  · next hc => exact hc
  · exact ⟨rfl, rfl⟩

theorem kenBurnsFrame_shape (img : Img) (n : ℕ) (d : String) (za : ℚ)
    (pan : Option String) (i : ℕ) :
    (kenBurnsFrame img n d za pan i).height = img.height ∧
      (kenBurnsFrame img n d za pan i).width = img.width := by
  simp only [kenBurnsFrame]
  exact shapeFix_shape img.height img.width _

/-- Claim C4 (amended): for every image, every frame count and the
source's parameter domain (`zoom_amount ≥ 1`, any zoom and pan
directions), `apply_ken_burns` returns exactly `frame_count` frames, each
with the input's `(height, width)`; `frame_count = 1` yields the single
frame of loop index 0 (the guard `if num_frames > 1` prevents any
division by zero), and `frame_count = 0` yields the empty sequence. -/
theorem kenburns_frame_count_and_dims (img : Img) (n : ℕ) (d : String)
    (za : ℚ) (pan : Option String) (hza : 1 ≤ za) :
    (apply_ken_burns img n d za pan).length = n
  ∧ (∀ f ∈ apply_ken_burns img n d za pan,
      f.height = img.height ∧ f.width = img.width)
  ∧ (n = 1 → apply_ken_burns img n d za pan = [kenBurnsFrame img 1 d za pan 0])
  ∧ (n = 0 → apply_ken_burns img n d za pan = []) := by
  refine ⟨by simp [apply_ken_burns], ?_, ?_, ?_⟩
  · intro f hf
    simp only [apply_ken_burns, List.mem_map, List.mem_range] at hf
    obtain ⟨i, _, rfl⟩ := hf
    exact kenBurnsFrame_shape img n d za pan i
  · rintro rfl
    rfl
  · rintro rfl
    rfl

theorem kenburns_frame_count_and_dims_witness :
    (1 : ℚ) ≤ 6/5 ∧ (apply_ken_burns testImgA 3 "in" (6/5) none).length = 3 :=
  ⟨by norm_num,
   (kenburns_frame_count_and_dims testImgA 3 "in" (6/5) none (by norm_num)).1⟩

/-- Claim C4, counterexample to the claim as stated: at
`frame_count = 0` the loop `for i in range(0)` runs zero times, so
`apply_ken_burns` returns an empty sequence, not "a single unmodified (or
minimally processed) frame". -/
theorem kenburns_zero_frames_counterexample :
    (apply_ken_burns testImgA 0 "in" (6/5) none).length = 0
  ∧ (apply_ken_burns testImgA 0 "in" (6/5) none).length ≠ 1 := by
  constructor <;> simp [apply_ken_burns]

/-- Claim C7: in `apply_ken_burns`, for `frame_count > 1` the per-frame
zoom scale is `lerp 1 zoom_amount t'` for zoom-in and
`lerp zoom_amount 1 t'` for zoom-out, where `t' = smoothstep (i / (n-1))`;
hence frame 0 has scale exactly `1` (resp. `zoom_amount` for zoom-out) and
the last frame has scale exactly `zoom_amount` (resp. `1`); the `i`-th
emitted frame is built from precisely this scale. -/
theorem kenburns_scale_lerp (n i : ℕ) (za : ℚ) (hn : 1 < n) (hi : i < n) :
    kenBurnsScale "in" za n i = lerp 1 za (smoothstep ((i : ℚ) / ((n : ℚ) - 1)))
  ∧ kenBurnsScale "out" za n i = lerp za 1 (smoothstep ((i : ℚ) / ((n : ℚ) - 1)))
  ∧ kenBurnsScale "in" za n 0 = 1
  ∧ kenBurnsScale "out" za n 0 = za
  ∧ kenBurnsScale "in" za n (n - 1) = za
  ∧ kenBurnsScale "out" za n (n - 1) = 1
  ∧ ∀ (img : Img) (pan : Option String),
      (apply_ken_burns img n "in" za pan).get? i =
        some (kenBurnsFrame img n "in" za pan i) := by
  have hone : (1 : ℚ) < (n : ℚ) := by exact_mod_cast hn
  have hne : ((n : ℚ) - 1) ≠ 0 := by linarith
  have hlast : (((n - 1 : ℕ) : ℚ)) / ((n : ℚ) - 1) = 1 := by
    have h1 : ((n - 1 : ℕ) : ℚ) = (n : ℚ) - 1 := by
      push_cast [Nat.cast_sub (le_of_lt hn)]
      ring
    rw [h1, div_self hne]
  refine ⟨?_, ?_, ?_, ?_, ?_, ?_, ?_⟩
  · simp only [kenBurnsScale, lerp, if_pos hn, if_pos rfl, ite_true]
  · simp only [kenBurnsScale, lerp, if_pos hn]
    rw [if_neg (by decide : ¬ ("out" = "in"))]
    ring
  · simp only [kenBurnsScale, if_pos hn, if_pos rfl, ite_true, Nat.cast_zero,
      zero_div, smoothstep_zero]
    ring
  · simp only [kenBurnsScale, if_pos hn, Nat.cast_zero, zero_div, smoothstep_zero]
    rw [if_neg (by decide : ¬ ("out" = "in"))]
    ring
  · simp only [kenBurnsScale, if_pos hn, if_pos rfl, ite_true, hlast,
      smoothstep_one]
    ring
  · simp only [kenBurnsScale, if_pos hn, hlast, smoothstep_one]
    rw [if_neg (by decide : ¬ ("out" = "in"))]
    ring
  · intro img pan
    simp only [apply_ken_burns, List.get?_map, List.get?_range hi,
      Option.map_some']

theorem kenburns_scale_lerp_witness :
    (1 < 3 ∧ 2 < 3) ∧ kenBurnsScale "in" (6/5) 3 (3 - 1) = 6/5 :=
  ⟨⟨by norm_num, by norm_num⟩,
   (kenburns_scale_lerp 3 2 (6/5) (by norm_num) (by norm_num)).2.2.2.2.1⟩

theorem round_mono_rat {x y : ℚ} (h : x ≤ y) : round x ≤ round y := by
  rw [round_eq, round_eq]
  exact Int.floor_mono (by linarith)

theorem getD_map_range {α : Type} (f : ℕ → α) (n i : ℕ) (hi : i < n) (d : α) :
    ((List.range n).map f).getD i d = f i := by
  rw [List.getD_eq_getElem _ _ (by simpa using hi)]
  simp

theorem pyInt_of_nonneg {q : ℚ} (h : 0 ≤ q) : pyInt q = ⌊q⌋ := if_pos h

theorem pyInt_natCast (m : ℕ) : pyInt (m : ℚ) = m := by
  rw [pyInt_of_nonneg (by positivity)]
  exact Int.floor_natCast m

theorem crossAlpha_mem (n i : ℕ) (hi : i < n) :
    0 ≤ crossAlpha n i ∧ crossAlpha n i ≤ 1 := by
  unfold crossAlpha
  by_cases hn : 1 < n
  · rw [if_pos hn]
    have hone : (1 : ℚ) < (n : ℚ) := by exact_mod_cast hn
    have hpos : (0 : ℚ) < (n : ℚ) - 1 := by linarith
    have ht0 : 0 ≤ (i : ℚ) / ((n : ℚ) - 1) := div_nonneg (by positivity) hpos.le
    have hti : (i : ℚ) ≤ (n : ℚ) - 1 := by
      have hcast : ((i : ℚ) + 1) ≤ (n : ℚ) := by exact_mod_cast Nat.succ_le_of_lt hi
      linarith
    exact smoothstep_mem _ ht0 ((div_le_one hpos).2 hti)
  · rw [if_neg hn]
    exact smoothstep_mem 1 (by norm_num) (by norm_num)

theorem crossAlpha_zero (n : ℕ) (hn : 2 ≤ n) : crossAlpha n 0 = 0 := by
  unfold crossAlpha
  rw [if_pos (by omega : 1 < n)]
  simp [smoothstep_zero]

theorem crossAlpha_last (n : ℕ) (hn : 2 ≤ n) : crossAlpha n (n - 1) = 1 := by
  unfold crossAlpha
  rw [if_pos (by omega : 1 < n)]
  have hone : (1 : ℚ) < (n : ℚ) := by exact_mod_cast (by omega : 1 < n)
  have hne : ((n : ℚ) - 1) ≠ 0 := by linarith
  have h1 : ((n - 1 : ℕ) : ℚ) = (n : ℚ) - 1 := by
    push_cast [Nat.cast_sub (by omega : 1 ≤ n)]
    ring
  rw [h1, div_self hne, smoothstep_one]

theorem crossAlpha_one_zero : crossAlpha 1 0 = 1 := by
  unfold crossAlpha
  rw [if_neg (by omega : ¬ 1 < 1), smoothstep_one]

theorem sat8_natCast (u : ℕ) (hu : u ≤ 255) : sat8 (u : ℚ) = u := by
  unfold sat8
  rw [round_natCast, min_eq_right (by exact_mod_cast hu : (u : ℤ) ≤ 255),
    Int.toNat_natCast]

theorem sat8_blend_mem (u v : ℕ) (hu : u ≤ 255) (hv : v ≤ 255) (α : ℚ)
    (h0 : 0 ≤ α) (h1 : α ≤ 1) :
    min u v ≤ sat8 ((1 - α) * u + α * v)
  ∧ sat8 ((1 - α) * u + α * v) ≤ max u v := by
  have hmincast : ((min u v : ℕ) : ℚ) = min (u : ℚ) (v : ℚ) := by
    push_cast [Nat.cast_min]
    ring_nf
  have hmaxcast : ((max u v : ℕ) : ℚ) = max (u : ℚ) (v : ℚ) := by
    push_cast [Nat.cast_max]
    ring_nf
  have hmin : ((min u v : ℕ) : ℚ) ≤ (1 - α) * u + α * v := by
    rw [hmincast]
    nlinarith [mul_nonneg (by linarith : (0 : ℚ) ≤ 1 - α)
        (sub_nonneg.2 (min_le_left (u : ℚ) (v : ℚ))),
      mul_nonneg h0 (sub_nonneg.2 (min_le_right (u : ℚ) (v : ℚ)))]
  have hmax : (1 - α) * u + α * v ≤ ((max u v : ℕ) : ℚ) := by
    rw [hmaxcast]
    nlinarith [mul_nonneg (by linarith : (0 : ℚ) ≤ 1 - α)
        (sub_nonneg.2 (le_max_left (u : ℚ) (v : ℚ))),
      mul_nonneg h0 (sub_nonneg.2 (le_max_right (u : ℚ) (v : ℚ)))]
  have hrmin : ((min u v : ℕ) : ℤ) ≤ round ((1 - α) * (u : ℚ) + α * v) := by
    have h := round_mono_rat hmin
    rwa [round_natCast] at h
  have hrmax : round ((1 - α) * (u : ℚ) + α * v) ≤ ((max u v : ℕ) : ℤ) := by
    have h := round_mono_rat hmax
    rwa [round_natCast] at h
  constructor
  · unfold sat8
    have h255 : ((min u v : ℕ) : ℤ) ≤ min 255 (round ((1 - α) * (u : ℚ) + α * v)) :=
      le_min (by exact_mod_cast le_trans (Nat.min_le_left u v) hu) hrmin
    have h := Int.toNat_le_toNat h255
    rwa [Int.toNat_natCast] at h
  · unfold sat8
    have hle : min 255 (round ((1 - α) * (u : ℚ) + α * v)) ≤ ((max u v : ℕ) : ℤ) :=
      le_trans (min_le_right _ _) hrmax
    have h := Int.toNat_le_toNat hle
    rwa [Int.toNat_natCast] at h

theorem crossfade_getD (a b : Img) (n i : ℕ) (hi : i < n) :
    (create_dynamic_transition a b n "crossfade").getD i defaultImg
      = crossfadeFrame a b n i := by
  unfold create_dynamic_transition
  rw [if_pos rfl]
  exact getD_map_range _ n i hi _

/-- Claim C5: for equal-size 8-bit frames, `crossfade` frame `i` is the
rounded saturated blend `frame_a·(1−t') + frame_b·t'` with
`t' = smoothstep (i/(N−1))`; for `N ≥ 2` the first frame equals `frame_a`
(alpha 0) and the last equals `frame_b` (alpha 1), every frame's pixel
values lie between the two sources, and `frame_count = 1` produces one
valid blended frame (the source sets `t = 1` there, giving `frame_b`)
without division by zero. -/
theorem crossfade_blend_spec (a b : Img) (n : ℕ)
    (ha : ∀ y x c, a.data y x c ≤ 255) (hb : ∀ y x c, b.data y x c ≤ 255) :
    (create_dynamic_transition a b n "crossfade").length = n
  ∧ (∀ i < n, (create_dynamic_transition a b n "crossfade").getD i defaultImg
      = addWeighted a (1 - crossAlpha n i) b (crossAlpha n i))
  ∧ (2 ≤ n → ∀ y x c,
      ((create_dynamic_transition a b n "crossfade").getD 0 defaultImg).data y x c
        = a.data y x c)
  ∧ (2 ≤ n → ∀ y x c,
      ((create_dynamic_transition a b n "crossfade").getD (n - 1) defaultImg).data y x c
        = b.data y x c)
  ∧ (∀ i < n, ∀ y x c,
      min (a.data y x c) (b.data y x c)
          ≤ ((create_dynamic_transition a b n "crossfade").getD i defaultImg).data y x c
      ∧ ((create_dynamic_transition a b n "crossfade").getD i defaultImg).data y x c
          ≤ max (a.data y x c) (b.data y x c))
  ∧ (n = 1 → ∀ y x c,
      ((create_dynamic_transition a b n "crossfade").getD 0 defaultImg).data y x c
        = b.data y x c) := by
  refine ⟨by simp [create_dynamic_transition], ?_, ?_, ?_, ?_, ?_⟩
  · intro i hi
    rw [crossfade_getD a b n i hi]
    rfl
  · intro hn y x c
    rw [crossfade_getD a b n 0 (by omega)]
    show sat8 ((1 - crossAlpha n 0) * (a.data y x c : ℚ)
        + crossAlpha n 0 * (b.data y x c : ℚ)) = a.data y x c
    rw [crossAlpha_zero n hn]
    rw [show (1 - (0:ℚ)) * (a.data y x c : ℚ) + 0 * (b.data y x c : ℚ)
        = (a.data y x c : ℚ) by ring]
    exact sat8_natCast _ (ha y x c)
  · intro hn y x c
    rw [crossfade_getD a b n (n - 1) (by omega)]
    show sat8 ((1 - crossAlpha n (n - 1)) * (a.data y x c : ℚ)
        + crossAlpha n (n - 1) * (b.data y x c : ℚ)) = b.data y x c
    rw [crossAlpha_last n hn]
    rw [show (1 - (1:ℚ)) * (a.data y x c : ℚ) + 1 * (b.data y x c : ℚ)
        = (b.data y x c : ℚ) by ring]
    exact sat8_natCast _ (hb y x c)
  · intro i hi y x c
    rw [crossfade_getD a b n i hi]
    obtain ⟨h0, h1⟩ := crossAlpha_mem n i hi
    exact sat8_blend_mem _ _ (ha y x c) (hb y x c) _ h0 h1
  · rintro rfl y x c
    rw [crossfade_getD a b 1 0 (by omega)]
    show sat8 ((1 - crossAlpha 1 0) * (a.data y x c : ℚ)
        + crossAlpha 1 0 * (b.data y x c : ℚ)) = b.data y x c
    rw [crossAlpha_one_zero]
    rw [show (1 - (1:ℚ)) * (a.data y x c : ℚ) + 1 * (b.data y x c : ℚ)
        = (b.data y x c : ℚ) by ring]
    exact sat8_natCast _ (hb y x c)

theorem crossfade_blend_spec_witness :
    (∀ y x c, fadeImgA.data y x c ≤ 255)
  ∧ (create_dynamic_transition fadeImgA fadeImgB 3 "crossfade").length = 3 :=
  ⟨fun _ _ _ => by norm_num [fadeImgA],
   (crossfade_blend_spec fadeImgA fadeImgB 3 (fun _ _ _ => by norm_num [fadeImgA])
      (fun _ _ _ => by norm_num [fadeImgB])).1⟩

theorem wipe_getD (a b : Img) (n i : ℕ) (hi : i < n) :
    (create_dynamic_transition a b n "wipe_left").getD i defaultImg
      = wipeFrame a b n i := by
  unfold create_dynamic_transition
  rw [if_neg (by decide : ¬ ("wipe_left" = "crossfade")), if_pos rfl]
  exact getD_map_range _ n i hi _

theorem wipeX_zero (w n : ℕ) (hn : 2 ≤ n) : wipeX w n 0 = 0 := by
  unfold wipeX
  rw [if_pos (by omega : 1 < n)]
  norm_num [pyInt]

theorem wipeX_last (w n : ℕ) (hn : 2 ≤ n) : wipeX w n (n - 1) = w := by
  unfold wipeX
  rw [if_pos (by omega : 1 < n)]
  have hone : (1 : ℚ) < (n : ℚ) := by exact_mod_cast (by omega : 1 < n)
  have hne : ((n : ℚ) - 1) ≠ 0 := by linarith
  have h1 : ((n - 1 : ℕ) : ℚ) = (n : ℚ) - 1 := by
    push_cast [Nat.cast_sub (by omega : 1 ≤ n)]
    ring
  rw [h1, div_self hne, mul_one, pyInt_natCast, Int.toNat_natCast]

theorem wipeX_single (w : ℕ) : wipeX w 1 0 = w := by
  unfold wipeX
  rw [if_neg (by omega : ¬ 1 < 1), mul_one, pyInt_natCast, Int.toNat_natCast]

theorem wipeX_mono (w n i j : ℕ) (hij : i ≤ j) (hj : j < n) :
    wipeX w n i ≤ wipeX w n j := by
  unfold wipeX
  by_cases hn : 1 < n
  · rw [if_pos hn, if_pos hn]
    have hone : (1 : ℚ) < (n : ℚ) := by exact_mod_cast hn
    have hpos : (0 : ℚ) < (n : ℚ) - 1 := by linarith
    have hti : (i : ℚ) / ((n : ℚ) - 1) ≤ (j : ℚ) / ((n : ℚ) - 1) := by
      apply div_le_div_of_nonneg_right ?_ hpos.le
      exact_mod_cast hij
    have hwi : (0 : ℚ) ≤ (w : ℚ) * ((i : ℚ) / ((n : ℚ) - 1)) := by positivity
    have hmul : (w : ℚ) * ((i : ℚ) / ((n : ℚ) - 1))
        ≤ (w : ℚ) * ((j : ℚ) / ((n : ℚ) - 1)) :=
      mul_le_mul_of_nonneg_left hti (by positivity)
    rw [pyInt_of_nonneg hwi, pyInt_of_nonneg (le_trans hwi hmul)]
    exact Int.toNat_le_toNat (Int.floor_mono hmul)
  · simp only [if_neg hn]
    exact le_rfl

/-- Claim C6 (amended): `wipe_left` frame `i` equals `frame_a` with its
leftmost `int(width * t)` columns overwritten by `frame_b`, where `t` is
the RAW time `i / (N - 1)` (the source applies no smoothstep easing to the
wipe boundary); the boundary is monotone in `i`, `frame_b`'s visible
region is empty at `i = 0` and covers the full width at `i = N - 1`, and
`frame_count = 1` produces one full-`frame_b` frame (the source sets
`t = 1`) without division by zero. -/
theorem wipe_left_raw_time (a b : Img) (n : ℕ) :
    (create_dynamic_transition a b n "wipe_left").length = n
  ∧ (∀ i < n, (create_dynamic_transition a b n "wipe_left").getD i defaultImg
      = wipeFrame a b n i)
  ∧ (2 ≤ n → ∀ i, i < n → ∀ y x c,
      ((create_dynamic_transition a b n "wipe_left").getD i defaultImg).data y x c
        = if x < (pyInt ((a.width : ℚ) * ((i : ℚ) / ((n : ℚ) - 1)))).toNat
          then b.data y x c else a.data y x c)
  ∧ (2 ≤ n → ∀ y x c,
      ((create_dynamic_transition a b n "wipe_left").getD 0 defaultImg).data y x c
        = a.data y x c)
  ∧ (2 ≤ n → ∀ y c, ∀ x < a.width,
      ((create_dynamic_transition a b n "wipe_left").getD (n - 1) defaultImg).data y x c
        = b.data y x c)
  ∧ (∀ i j, i ≤ j → j < n → wipeX a.width n i ≤ wipeX a.width n j)
  ∧ (n = 1 → ∀ y c, ∀ x < a.width,
      ((create_dynamic_transition a b n "wipe_left").getD 0 defaultImg).data y x c
        = b.data y x c) := by
  refine ⟨?_, ?_, ?_, ?_, ?_, ?_, ?_⟩
  · simp [create_dynamic_transition]
  · intro i hi
    exact wipe_getD a b n i hi
  · intro hn i hi y x c
    rw [wipe_getD a b n i hi]
    show (if x < wipeX a.width n i then b.data y x c else a.data y x c) = _
    unfold wipeX
    rw [if_pos (by omega : 1 < n)]
  · intro hn y x c
    rw [wipe_getD a b n 0 (by omega)]
    show (if x < wipeX a.width n 0 then b.data y x c else a.data y x c) = _
    rw [wipeX_zero a.width n hn]
    simp
  · intro hn y c x hx
    rw [wipe_getD a b n (n - 1) (by omega)]
    show (if x < wipeX a.width n (n - 1) then b.data y x c else a.data y x c) = _
    rw [wipeX_last a.width n hn, if_pos hx]
  · intro i j hij hj
    exact wipeX_mono a.width n i j hij hj
  · rintro rfl y c x hx
    rw [wipe_getD a b 1 0 (by omega)]
    show (if x < wipeX a.width 1 0 then b.data y x c else a.data y x c) = _
    rw [wipeX_single a.width, if_pos hx]

theorem wipe_left_raw_time_witness :
    (2 ≤ 5 ∧ (0 : ℕ) < 5)
  ∧ ((create_dynamic_transition wipeImgA wipeImgB 5 "wipe_left").getD 0
      defaultImg).data 0 3 0 = wipeImgA.data 0 3 0 :=
  ⟨⟨by norm_num, by norm_num⟩,
   (wipe_left_raw_time wipeImgA wipeImgB 5).2.2.2.1 (by norm_num) 0 3 0⟩

/-- Claim C6, counterexample to the claim as stated: with 1 × 10 frames,
`N = 5`, `i = 1`, the source's raw-time boundary is
`int(10 * 1/4) = 2`, so column `x = 1` already shows `frame_b` (value 7),
while the claimed eased boundary `int(10 * smoothstep (1/4)) = 1` would
leave column `x = 1` showing `frame_a` (value 0). -/
theorem wipe_left_eased_counterexample :
    ((create_dynamic_transition wipeImgA wipeImgB 5 "wipe_left").getD 1
      defaultImg).data 0 1 0 = 7
  ∧ (wipeFrameSpecEased wipeImgA wipeImgB 5 1).data 0 1 0 = 0
  ∧ ((create_dynamic_transition wipeImgA wipeImgB 5 "wipe_left").getD 1
      defaultImg).data 0 1 0
    ≠ (wipeFrameSpecEased wipeImgA wipeImgB 5 1).data 0 1 0 := by
  have hw : wipeX wipeImgA.width 5 1 = 2 := by
    unfold wipeX
    rw [if_pos (by norm_num : (1 : ℕ) < 5)]
    norm_num [wipeImgA, pyInt]
    rfl
  have h1 : ((create_dynamic_transition wipeImgA wipeImgB 5 "wipe_left").getD 1
      defaultImg).data 0 1 0 = 7 := by
    rw [wipe_getD wipeImgA wipeImgB 5 1 (by norm_num)]
    show (if (1 : ℕ) < wipeX wipeImgA.width 5 1 then wipeImgB.data 0 1 0
          else wipeImgA.data 0 1 0) = 7
    rw [hw]
    norm_num [wipeImgB]
  have h2 : (wipeFrameSpecEased wipeImgA wipeImgB 5 1).data 0 1 0 = 0 := by
    norm_num [wipeFrameSpecEased, wipeImgA, wipeImgB, smoothstep, pyInt]
  exact ⟨h1, h2, by rw [h1, h2]; norm_num⟩

theorem create_dynamic_transition_length (a b : Img) (n : ℕ) (ty : String)
    (hty : ty = "crossfade" ∨ ty = "wipe_left" ∨ ty = "zoom_blur") :
    (create_dynamic_transition a b n ty).length = n := by
  rcases hty with rfl | rfl | rfl <;> simp [create_dynamic_transition]

theorem sceneFramesList_length (ukb : Bool) (pick : ℕ → String × Option String)
    (idx sf : ℕ) (img : Img) :
    (sceneFramesList ukb pick idx sf img).length = sf := by
  unfold sceneFramesList
  split
  · simp [apply_ken_burns]
  · simp

theorem assembleFrames_length (ukb : Bool) (pick : ℕ → String × Option String)
    (ty : String) (sf tf : ℕ)
    (hty : ty = "crossfade" ∨ ty = "wipe_left" ∨ ty = "zoom_blur") :
    ∀ (imgs : List Img) (idx : ℕ),
      (assembleFrames ukb pick ty sf tf idx imgs).length
        = imgs.length * sf + (imgs.length - 1) * tf := by
  intro imgs
  induction imgs with
  | nil => intro idx; simp [assembleFrames]
  | cons img rest ih =>
    intro idx
    cases rest with
    | nil => simp [assembleFrames, sceneFramesList_length]
    | cons nxt rest2 =>
      have h := ih (idx + 1)
      rw [show assembleFrames ukb pick ty sf tf idx (img :: nxt :: rest2)
          = sceneFramesList ukb pick idx sf img
            ++ create_dynamic_transition img nxt tf ty
            ++ assembleFrames ukb pick ty sf tf (idx + 1) (nxt :: rest2) from rfl]
      simp only [List.length_append, sceneFramesList_length,
        create_dynamic_transition_length _ _ _ _ hty, h, List.length_cons,
        Nat.add_sub_cancel]
      ring

theorem loadImages_ok_of_all_some (imread : String → Option Img)
    (ug : Bool) (style : String) :
    ∀ paths : List String, (∀ p ∈ paths, (imread p).isSome) →
      ∃ imgs, loadImages imread ug style paths = .ok imgs
        ∧ imgs.length = paths.length := by
  intro paths h
  induction paths with
  | nil => exact ⟨[], rfl, rfl⟩
  | cons p rest ih =>
    obtain ⟨img, himg⟩ := Option.isSome_iff_exists.1 (h p (List.mem_cons_self p rest))
    obtain ⟨imgs, hok, hlen⟩ := ih (fun q hq => h q (List.mem_cons_of_mem _ hq))
    refine ⟨(if ug then apply_cinematic_color_grade img style else img) :: imgs,
      ?_, by simp [hlen]⟩
    simp [loadImages, load_image, himg, hok]

theorem resize_to_match_length (imgs : List Img) :
    (resize_to_match imgs).length = imgs.length := by
  unfold resize_to_match
  cases imgs <;> simp

theorem create_video_length (imread : String → Option Img) (paths : List String)
    (fps : ℕ) (sd td : ℚ) (ukb ug : Bool) (style ty : String)
    (pick : ℕ → String × Option String)
    (hne : paths ≠ [])
    (hload : ∀ p ∈ paths, (imread p).isSome)
    (hty : ty = "crossfade" ∨ ty = "wipe_left" ∨ ty = "zoom_blur") :
    ∃ frames, create_video imread paths fps sd td ukb ug style ty pick = .ok frames
      ∧ frames.length = paths.length * (pyInt ((fps : ℚ) * sd)).toNat
          + (paths.length - 1) * (pyInt ((fps : ℚ) * td)).toNat := by
  obtain ⟨imgs, hok, hlen⟩ := loadImages_ok_of_all_some imread ug style paths hload
  have hrlen : (resize_to_match imgs).length = imgs.length := resize_to_match_length imgs
  obtain ⟨i0, rest, hsplit⟩ : ∃ i0 rest, resize_to_match imgs = i0 :: rest := by
    cases hr : resize_to_match imgs with
    | nil =>
      exfalso
      rw [hr] at hrlen
      apply hne
      have h0 : imgs.length = 0 := by simpa using hrlen.symm
      exact List.length_eq_zero.1 (by rw [← hlen]; exact h0)
    | cons i0 rest => exact ⟨i0, rest, rfl⟩
  unfold create_video
  rw [hok]
  dsimp only
  rw [hsplit]
  refine ⟨_, rfl, ?_⟩
  rw [assembleFrames_length ukb pick ty _ _ hty]
  have hlen2 : (i0 :: rest).length = paths.length := by
    rw [← hsplit, hrlen, hlen]
  rw [hlen2]

/-- Claim C1 (amended): for every run of `create_video` on a non-empty
list of `N` decodable images with a recognized transition type and
nonnegative durations, the total number of frames pushed to the encoder
sink equals `N * int(fps * scene_duration) + (N - 1) *
int(fps * transition_duration)` — the source truncates with `int(...)`
(equal to the floor on this nonnegative domain), not `round(...)`.  In
particular for `N = 1` exactly `int(fps * scene_duration)` frames are
emitted and zero transition frames. -/
theorem create_video_frame_count (imread : String → Option Img)
    (paths : List String) (fps : ℕ) (sd td : ℚ) (ukb ug : Bool)
    (style ty : String) (pick : ℕ → String × Option String)
    (hne : paths ≠ [])
    (hload : ∀ p ∈ paths, (imread p).isSome)
    (hty : ty = "crossfade" ∨ ty = "wipe_left" ∨ ty = "zoom_blur")
    (hsd : 0 ≤ sd) (htd : 0 ≤ td) :
    ∃ frames, create_video imread paths fps sd td ukb ug style ty pick = .ok frames
      ∧ frames.length = paths.length * (⌊(fps : ℚ) * sd⌋).toNat
          + (paths.length - 1) * (⌊(fps : ℚ) * td⌋).toNat := by
  obtain ⟨frames, hok, hlen⟩ :=
    create_video_length imread paths fps sd td ukb ug style ty pick hne hload hty
  refine ⟨frames, hok, ?_⟩
  rw [hlen, pyInt_of_nonneg (mul_nonneg (by positivity) hsd),
    pyInt_of_nonneg (mul_nonneg (by positivity) htd)]

theorem create_video_frame_count_witness :
    (["a.png"] ≠ ([] : List String))
  ∧ ∃ frames, create_video imreadAll ["a.png"] 10 4 1 true true "warm"
        "crossfade" pickIn = .ok frames
      ∧ frames.length = (["a.png"] : List String).length * (⌊(10 : ℚ) * 4⌋).toNat
          + ((["a.png"] : List String).length - 1) * (⌊(10 : ℚ) * 1⌋).toNat :=
  ⟨by simp,
   create_video_frame_count imreadAll ["a.png"] 10 4 1 true true "warm"
     "crossfade" pickIn (by simp) (fun p _ => rfl) (Or.inl rfl)
     (by norm_num) (by norm_num)⟩

/-- Claim C1, counterexample to the claim as stated: one decodable image,
`fps = 10`, `scene_duration = 0.35`, `transition_duration = 1`.  The code
emits `int(10 * 0.35) = 3` frames, while the claimed formula
`1 * round(10 * 0.35) + 0 * round(10 * 1) = 4` — `int()` truncates where
the claim says `round`. -/
theorem create_video_truncation_counterexample :
    (∃ frames, create_video imreadAll ["a.png"] 10 (7/20) 1 false true "warm"
        "crossfade" pickIn = .ok frames ∧ frames.length = 3)
  ∧ (1 * round ((10 : ℚ) * (7/20)) + (1 - 1) * round ((10 : ℚ) * 1) = 4)
  ∧ (3 : ℤ) ≠ 4 := by
  refine ⟨?_, ?_, by norm_num⟩
  · obtain ⟨frames, hok, hlen⟩ :=
      create_video_length imreadAll ["a.png"] 10 (7/20) 1 false true "warm"
        "crossfade" pickIn (by simp) (fun p _ => rfl) (Or.inl rfl)
    refine ⟨frames, hok, ?_⟩
    rw [hlen]
    norm_num [pyInt]
    rfl
  · norm_num [round_eq]

theorem loadImages_error_of_find (imread : String → Option Img)
    (ug : Bool) (style : String) :
    ∀ (paths : List String) (p : String),
      paths.find? (fun q => (imread q).isNone) = some p →
      loadImages imread ug style paths = .error (.loadError p) := by
  intro paths
  induction paths with
  | nil => intro p h; simp [List.find?] at h
  | cons q rest ih =>
    intro p h
    by_cases hq : (imread q).isNone
    · have hqp : q = p := by
        rw [List.find?_cons_of_pos _ (by simpa using hq)] at h
        exact Option.some_injective _ h
      subst hqp
      have hnone : imread q = none := Option.isNone_iff_eq_none.1 hq
      simp [loadImages, load_image, hnone]
    · rw [List.find?_cons_of_neg _ (by simpa using hq)] at h
      obtain ⟨img, himg⟩ : ∃ img, imread q = some img := by
        cases hi : imread q with
        | none => exact absurd (by simp [hi]) hq
        | some img => exact ⟨img, rfl⟩
      simp [loadImages, load_image, himg, ih p h]

/-- Claim C3: if some input path is missing or undecodable, `create_video`
aborts the whole run with the load error naming the FIRST offending path
(the source's `ValueError` from `load_image`, the spec's `LoadError`), and
no frames have been written to the encoder sink: the `VideoWriter` is only
created after the loading loop finishes, so the error propagates before
any frame work. -/
theorem create_video_aborts_on_load_error (imread : String → Option Img)
    (paths : List String) (fps : ℕ) (sd td : ℚ) (ukb ug : Bool)
    (style ty : String) (pick : ℕ → String × Option String) (p : String)
    (hfind : paths.find? (fun q => (imread q).isNone) = some p) :
    create_video imread paths fps sd td ukb ug style ty pick
        = .error (.loadError p)
  ∧ writtenFrames (create_video imread paths fps sd td ukb ug style ty pick)
        = [] := by
  have herr := loadImages_error_of_find imread ug style paths p hfind
  constructor
  · unfold create_video
    rw [herr]
  · unfold create_video
    rw [herr]
    rfl

theorem create_video_aborts_on_load_error_witness :
    (["a.png", "bad.png", "c.png"].find? (fun q => (imreadBad q).isNone)
        = some "bad.png")
  ∧ create_video imreadBad ["a.png", "bad.png", "c.png"] 24 4 1 true true
      "warm" "zoom_blur" pickIn = .error (.loadError "bad.png") := by
  have hfind : ["a.png", "bad.png", "c.png"].find?
      (fun q => (imreadBad q).isNone) = some "bad.png" := by
    simp [List.find?, imreadBad]
  exact ⟨hfind,
    (create_video_aborts_on_load_error imreadBad ["a.png", "bad.png", "c.png"]
      24 4 1 true true "warm" "zoom_blur" pickIn "bad.png" hfind).1⟩

theorem sqrt_maxDistSq_eq_sup (h w : ℕ)
    (hne : (Finset.range h ×ˢ Finset.range w).Nonempty) :
    Real.sqrt (maxDistSq h w)
      = (Finset.range h ×ˢ Finset.range w).sup' hne
          (fun p => Real.sqrt (distSq h w p.1 p.2)) := by
  unfold maxDistSq
  rw [← Finset.sup'_eq_sup hne]
  exact Finset.comp_sup'_eq_sup'_comp hne (fun m : ℕ => Real.sqrt (m : ℝ))
    (fun m k => Monotone.map_max
      (fun u v huv => Real.sqrt_le_sqrt (by exact_mod_cast huv)))

theorem distSq_le_maxDistSq (h w y x : ℕ) (hy : y < h) (hx : x < w) :
    distSq h w y x ≤ maxDistSq h w :=
  Finset.le_sup (f := fun p : ℕ × ℕ => distSq h w p.1 p.2)
    (by simp [Finset.mem_product, hy, hx] :
      ((y, x) : ℕ × ℕ) ∈ Finset.range h ×ˢ Finset.range w)

theorem distSq_le_corner (h w y x : ℕ) (hy : y < h) (hx : x < w) :
    distSq h w y x ≤ distSq h w 0 0 := by
  unfold distSq
  have hxa : ((x : ℤ) - ((w / 2 : ℕ) : ℤ)).natAbs
      ≤ (((0 : ℕ) : ℤ) - ((w / 2 : ℕ) : ℤ)).natAbs := by omega
  have hya : ((y : ℤ) - ((h / 2 : ℕ) : ℤ)).natAbs
      ≤ (((0 : ℕ) : ℤ) - ((h / 2 : ℕ) : ℤ)).natAbs := by omega
  exact Nat.add_le_add (Nat.pow_le_pow_left hxa 2) (Nat.pow_le_pow_left hya 2)

theorem maxDistSq_eq_corner (h w : ℕ) (hh : 1 ≤ h) (hw : 1 ≤ w) :
    maxDistSq h w = distSq h w 0 0 := by
  apply le_antisymm
  · apply Finset.sup_le
    rintro ⟨y, x⟩ hyx
    simp only [Finset.mem_product, Finset.mem_range] at hyx
    exact distSq_le_corner h w y x hyx.1 hyx.2
  · exact distSq_le_maxDistSq h w 0 0 hh hw

theorem maxDistSq_pos (h w : ℕ) (hh : 1 ≤ h) (hw : 1 ≤ w)
    (hsz : 2 ≤ h * w) : 0 < maxDistSq h w := by
  rw [maxDistSq_eq_corner h w hh hw]
  unfold distSq
  have hcase : 2 ≤ w ∨ 2 ≤ h := by
    by_contra hc
    push_neg at hc
    obtain ⟨hw2, hh2⟩ := hc
    have hw1 : w = 1 := by omega
    have hh1 : h = 1 := by omega
    rw [hw1, hh1] at hsz
    norm_num at hsz
  rcases hcase with h2 | h2
  · have ha : 0 < (((0 : ℕ) : ℤ) - ((w / 2 : ℕ) : ℤ)).natAbs := by omega
    exact lt_of_lt_of_le (pow_pos ha 2) (Nat.le_add_right _ _)
  · have ha : 0 < (((0 : ℕ) : ℤ) - ((h / 2 : ℕ) : ℤ)).natAbs := by omega
    exact lt_of_lt_of_le (pow_pos ha 2) (Nat.le_add_left _ _)

theorem vignetteFactor_le_one (h w y x : ℕ) : vignetteFactor h w y x ≤ 1 := by
  unfold vignetteFactor
  have hr : 0 ≤ Real.sqrt (distSq h w y x) / Real.sqrt (maxDistSq h w) :=
    div_nonneg (Real.sqrt_nonneg _) (Real.sqrt_nonneg _)
  nlinarith

theorem vignetteFactor_ge (h w y x : ℕ) (hy : y < h) (hx : x < w) :
    (7/10 : ℝ) ≤ vignetteFactor h w y x := by
  unfold vignetteFactor
  have hratio : Real.sqrt (distSq h w y x) / Real.sqrt (maxDistSq h w) ≤ 1 := by
    rcases Nat.eq_zero_or_pos (maxDistSq h w) with hM | hM
    · rw [hM]
      simp
    · apply div_le_one_of_le
      · exact Real.sqrt_le_sqrt
          (by exact_mod_cast distSq_le_maxDistSq h w y x hy hx)
      · exact Real.sqrt_nonneg _
  nlinarith

theorem vignetteFactor_corner (h w : ℕ) (hh : 1 ≤ h) (hw : 1 ≤ w)
    (hsz : 2 ≤ h * w) : vignetteFactor h w 0 0 = 7/10 := by
  unfold vignetteFactor
  have hM : 0 < maxDistSq h w := maxDistSq_pos h w hh hw hsz
  have hEq : ((distSq h w 0 0 : ℕ) : ℝ) = ((maxDistSq h w : ℕ) : ℝ) := by
    exact_mod_cast congrArg (Nat.cast : ℕ → ℝ) (maxDistSq_eq_corner h w hh hw).symm
  rw [hEq, div_self (Real.sqrt_pos.2 (by exact_mod_cast hM)).ne']
  norm_num

theorem vignetteFactor_strict_anti (h w y x y' x' : ℕ)
    (hy' : y' < h) (hx' : x' < w)
    (hlt : distSq h w y x < distSq h w y' x') :
    vignetteFactor h w y' x' < vignetteFactor h w y x := by
  unfold vignetteFactor
  have hM : distSq h w y' x' ≤ maxDistSq h w :=
    distSq_le_maxDistSq h w y' x' hy' hx'
  have hMpos : (0 : ℝ) < Real.sqrt (maxDistSq h w) := by
    apply Real.sqrt_pos.2
    have hpos : 0 < maxDistSq h w := lt_of_lt_of_le (Nat.pos_of_ne_zero ?_) hM
    · exact_mod_cast hpos
    · omega
  have hsq : Real.sqrt (distSq h w y x) < Real.sqrt (distSq h w y' x') :=
    Real.sqrt_lt_sqrt (by positivity) (by exact_mod_cast hlt)
  have hdiv : Real.sqrt (distSq h w y x) / Real.sqrt (maxDistSq h w)
      < Real.sqrt (distSq h w y' x') / Real.sqrt (maxDistSq h w) :=
    (div_lt_div_right hMpos).2 hsq
  linarith

/-- Claim C8: for every input image (arbitrary pixel values) and every
style, `apply_cinematic_color_grade` returns a buffer of identical
dimensions whose every channel value lies in `[0, 255]`: the float value
is clamped to `[0, 1]` (`np.clip`) before the 8-bit quantization, so
values never wrap around.  (The hypothesis `2 ≤ height * width` excludes
the degenerate `1 × 1` grid, where the source divides by
`vignette.max() = 0`.) -/
theorem color_grade_output_range (img : Img) (style : String) (y x : ℕ)
    (c : Fin 3) (hsz : 2 ≤ img.height * img.width) :
    (apply_cinematic_color_grade img style).height = img.height
  ∧ (apply_cinematic_color_grade img style).width = img.width
  ∧ (apply_cinematic_color_grade img style).data y x c
      = (⌊min 1 (max 0 (gradePre img style y x c)) * 255⌋).toNat
  ∧ (apply_cinematic_color_grade img style).data y x c ≤ 255 := by
  refine ⟨rfl, rfl, rfl, ?_⟩
  show quantize8 (gradePre img style y x c) ≤ 255
  unfold quantize8
  have hclip : min 1 (max 0 (gradePre img style y x c)) ≤ 1 := min_le_left _ _
  have hle : min 1 (max 0 (gradePre img style y x c)) * 255 ≤ (255 : ℝ) := by
    nlinarith
  have hfl : (⌊min 1 (max 0 (gradePre img style y x c)) * 255⌋) ≤ (255 : ℤ) := by
    have h2 := Int.floor_mono hle
    simpa using h2
  have h3 := Int.toNat_le_toNat hfl
  simpa using h3

theorem color_grade_output_range_witness :
    (2 : ℕ) ≤ testImgA.height * testImgA.width
  ∧ (apply_cinematic_color_grade testImgA "cyberpunk").data 0 1 2 ≤ 255 :=
  ⟨by norm_num [testImgA],
   (color_grade_output_range testImgA "cyberpunk" 0 1 2
     (by norm_num [testImgA])).2.2.2⟩

/-- Claim C9: `apply_cinematic_color_grade` multiplies every channel of
every pixel by the style-independent radial factor
`1 − 0.3 · (distance from center / maximum distance)` (`vignetteFactor`,
which takes no style argument); the factor lies in `[0.7, 1]` on the
grid — brightness attenuates by up to 30 %, attained at the farthest
corner `(0, 0)` — and strictly decreases as the squared center distance
grows. -/
theorem color_grade_vignette (img : Img) (style : String) (y x : ℕ) (c : Fin 3) :
    gradePre img style y x c
        = styleTransform style c ((img.data y x c : ℝ) / 255)
          * vignetteFactor img.height img.width y x
  ∧ (y < img.height → x < img.width →
      (7/10 : ℝ) ≤ vignetteFactor img.height img.width y x
        ∧ vignetteFactor img.height img.width y x ≤ 1)
  ∧ (1 ≤ img.height → 1 ≤ img.width → 2 ≤ img.height * img.width →
      vignetteFactor img.height img.width 0 0 = 7/10)
  ∧ (∀ y' x', y' < img.height → x' < img.width →
      distSq img.height img.width y x < distSq img.height img.width y' x' →
      vignetteFactor img.height img.width y' x'
        < vignetteFactor img.height img.width y x) :=
  ⟨rfl,
   fun hy hx => ⟨vignetteFactor_ge _ _ _ _ hy hx, vignetteFactor_le_one _ _ _ _⟩,
   fun hh hw hsz => vignetteFactor_corner _ _ hh hw hsz,
   fun y' x' hy' hx' hlt => vignetteFactor_strict_anti _ _ _ _ _ _ hy' hx' hlt⟩

theorem color_grade_vignette_witness :
    ((1 : ℕ) ≤ wipeImgA.height ∧ (1 : ℕ) ≤ wipeImgA.width
      ∧ (2 : ℕ) ≤ wipeImgA.height * wipeImgA.width)
  ∧ vignetteFactor wipeImgA.height wipeImgA.width 0 0 = 7/10 :=
  ⟨⟨by norm_num [wipeImgA], by norm_num [wipeImgA], by norm_num [wipeImgA]⟩,
   (color_grade_vignette wipeImgA "warm" 0 0 0).2.2.1
     (by norm_num [wipeImgA]) (by norm_num [wipeImgA]) (by norm_num [wipeImgA])⟩

/-- Claim C2, counterexample to the claim as stated: no configuration
check exists.  On an all-zero image the unrecognized style `"neon"` falls
through every branch of `apply_cinematic_color_grade` and returns the
input values unchanged — a silent no-op, not an error; and
`create_dynamic_transition` with the unrecognized type `"rotate"` (listed
in the source's own docstring) silently returns zero frames. -/
theorem unknown_style_silent_counterexample :
    apply_cinematic_color_grade zeroImg "neon" = zeroImg
  ∧ create_dynamic_transition zeroImg testImgB 4 "rotate" = [] := by
  constructor
  · refine Img.ext rfl rfl ?_
    funext y x c
    have hst : styleTransform "neon" c ((zeroImg.data y x c : ℝ) / 255) = 0 := by
      unfold styleTransform
      rw [if_neg (by decide : ¬ ("neon" = "warm")),
        if_neg (by decide : ¬ ("neon" = "cool")),
        if_neg (by decide : ¬ ("neon" = "vintage")),
        if_neg (by decide : ¬ ("neon" = "cyberpunk"))]
      show ((zeroImg.data y x c : ℝ) / 255) = 0
      norm_num [zeroImg]
    show quantize8 (gradePre zeroImg "neon" y x c) = zeroImg.data y x c
    unfold gradePre
    rw [hst, zero_mul]
    unfold quantize8
    norm_num [zeroImg]
  · unfold create_dynamic_transition
    rw [if_neg (by decide : ¬ ("rotate" = "crossfade")),
      if_neg (by decide : ¬ ("rotate" = "wipe_left")),
      if_neg (by decide : ¬ ("rotate" = "zoom_blur"))]

/-- Claim C2 (amended): the pipeline performs no configuration check at
all.  An unrecognized `transition_type` makes `create_dynamic_transition`
silently return an empty frame list (zero transition frames emitted, no
error), and an unrecognized `color_style` makes
`apply_cinematic_color_grade` silently skip all per-channel gains and
apply only the vignette — a near no-op, not an error. -/
theorem unrecognized_config_silent (ty s : String) (a b img : Img) (n : ℕ)
    (ht1 : ty ≠ "crossfade") (ht2 : ty ≠ "wipe_left") (ht3 : ty ≠ "zoom_blur")
    (hs1 : s ≠ "warm") (hs2 : s ≠ "cool") (hs3 : s ≠ "vintage")
    (hs4 : s ≠ "cyberpunk") :
    create_dynamic_transition a b n ty = []
  ∧ apply_cinematic_color_grade img s
      = ⟨img.height, img.width,
         fun y x c => quantize8 (((img.data y x c : ℝ) / 255)
           * vignetteFactor img.height img.width y x)⟩ := by
  constructor
  · unfold create_dynamic_transition
    rw [if_neg ht1, if_neg ht2, if_neg ht3]
  · refine Img.ext rfl rfl ?_
    funext y x c
    show quantize8 (gradePre img s y x c) = _
    unfold gradePre styleTransform
    rw [if_neg hs1, if_neg hs2, if_neg hs3, if_neg hs4]

theorem unrecognized_config_silent_witness :
    ("rotate" ≠ "crossfade" ∧ "neon" ≠ "warm")
  ∧ create_dynamic_transition zeroImg testImgB 3 "rotate" = [] :=
  ⟨⟨by decide, by decide⟩,
   (unrecognized_config_silent "rotate" "neon" zeroImg testImgB testImgA 3
     (by decide) (by decide) (by decide) (by decide) (by decide) (by decide)
     (by decide)).1⟩

theorem getD_set_ne {α : Type} (l : List α) (n m : ℕ) (a d : α) (h : n ≠ m) :
    (l.set n a).getD m d = l.getD m d := by
  simp [List.getD_eq_getD_get?, List.get?_eq_getElem?, List.getElem?_set_ne h]

theorem getD_set_self {α : Type} (l : List α) (n : ℕ) (a d : α)
    (h : n < l.length) : (l.set n a).getD n d = a := by
  simp [List.getD_eq_getD_get?, List.get?_eq_getElem?,
    List.getElem?_set_eq_of_lt a h]

theorem getD_append_length {α : Type} (l l2 : List α) (a d : α) :
    ((l ++ (a :: l2)).getD l.length d) = a := by
  rw [List.getD_append_right _ _ _ _ le_rfl]
  simp [List.getD]

theorem grade_pipeline_content (img0 : Img) (style : String) :
    bufPixMap
      (bufPixMap
        (bufPixMap
          (bufPixMap (bufPixMap (bufOfImg img0) (fun _ _ _ v => v / 255))
            (fun _ _ c v => styleTransform style c v))
          (fun y x _ v => v * vignetteFactor img0.height img0.width y x))
        (fun _ _ _ v => min 1 (max 0 v)))
      (fun _ _ _ v => ((⌊v * 255⌋.toNat : ℕ) : ℝ))
      = bufOfImg (apply_cinematic_color_grade img0 style) := rfl

theorem grade_pipeline_content_default (img0 : Img) (style : String)
    (hs1 : style ≠ "warm") (hs2 : style ≠ "cool") (hs3 : style ≠ "vintage")
    (hs4 : style ≠ "cyberpunk") :
    bufPixMap
      (bufPixMap
        (bufPixMap (bufPixMap (bufOfImg img0) (fun _ _ _ v => v / 255))
          (fun y x _ v => v * vignetteFactor img0.height img0.width y x))
        (fun _ _ _ v => min 1 (max 0 v)))
      (fun _ _ _ v => ((⌊v * 255⌋.toNat : ℕ) : ℝ))
      = bufOfImg (apply_cinematic_color_grade img0 style) := by
  refine BufImg.ext rfl rfl ?_
  funext y x c
  show ((⌊min 1 (max 0 (((img0.data y x c : ℝ) / 255)
      * vignetteFactor img0.height img0.width y x)) * 255⌋).toNat : ℝ)
    = ((quantize8 (gradePre img0 style y x c) : ℕ) : ℝ)
  unfold gradePre styleTransform
  rw [if_neg hs1, if_neg hs2, if_neg hs3, if_neg hs4]
  rfl

/-- Claim C10: the color grade never mutates its argument.  In the
allocation model, `img.astype(np.float32)` copies the input at entry and
every subsequent write targets that copy or a later allocation, so after
the call the heap slot of the argument holds exactly its original
content; the returned buffer is a freshly allocated slot (index at least
the old heap size, in particular distinct from the argument), and it
holds the value of the pure `apply_cinematic_color_grade`. -/
theorem color_grade_no_mutation (heap : List BufImg) (i : ℕ) (style : String)
    (img0 : Img) (hi : i < heap.length)
    (hslot : heap.getD i defaultBuf = bufOfImg img0) :
    ((gradeHeapRun heap i style).1.getD i defaultBuf = heap.getD i defaultBuf)
  ∧ heap.length ≤ (gradeHeapRun heap i style).2
  ∧ (gradeHeapRun heap i style).2 ≠ i
  ∧ (gradeHeapRun heap i style).1.getD (gradeHeapRun heap i style).2 defaultBuf
      = bufOfImg (apply_cinematic_color_grade img0 style) := by
  by_cases hwc : style = "warm" ∨ style = "cool"
  · refine ⟨?_, ?_, ?_, ?_⟩
    · simp only [gradeHeapRun]
      rw [if_pos hwc]
      dsimp only
      rw [List.getD_append _ _ _ _
          (by simp [List.length_append, List.length_set]; omega),
        List.getD_append _ _ _ _
          (by simp [List.length_append, List.length_set]; omega),
        getD_set_ne _ _ _ _ _ (by omega), getD_set_ne _ _ _ _ _ (by omega),
        List.getD_append _ _ _ _ hi]
    · simp only [gradeHeapRun]
      rw [if_pos hwc]
      dsimp only
      simp [List.length_append, List.length_set]
    · simp only [gradeHeapRun]
      rw [if_pos hwc]
      dsimp only
      simp only [List.length_append, List.length_set, List.length_cons,
        List.length_nil]
      omega
    · simp only [gradeHeapRun]
      rw [if_pos hwc]
      dsimp only
      rw [getD_append_length, getD_append_length,
        getD_set_self _ _ _ _ (by simp [List.length_append, List.length_set]),
        getD_set_self _ _ _ _ (by simp [List.length_append]),
        getD_append_length, hslot]
      exact grade_pipeline_content img0 style
  · by_cases hvc : style = "vintage" ∨ style = "cyberpunk"
    · refine ⟨?_, ?_, ?_, ?_⟩
      · simp only [gradeHeapRun]
        rw [if_neg hwc, if_pos hvc]
        dsimp only
        rw [List.getD_append _ _ _ _
            (by simp [List.length_append, List.length_set]; omega),
          List.getD_append _ _ _ _
            (by simp [List.length_append, List.length_set]; omega),
          getD_set_ne _ _ _ _ _ (by simp [List.length_append]; omega),
          List.getD_append _ _ _ _ (by simp [List.length_append]; omega),
          List.getD_append _ _ _ _ hi]
      · simp only [gradeHeapRun]
        rw [if_neg hwc, if_pos hvc]
        dsimp only
        simp [List.length_append, List.length_set]
      · simp only [gradeHeapRun]
        rw [if_neg hwc, if_pos hvc]
        dsimp only
        simp only [List.length_append, List.length_set, List.length_cons,
          List.length_nil]
        omega
      · simp only [gradeHeapRun]
        rw [if_neg hwc, if_pos hvc]
        dsimp only
        rw [getD_append_length, getD_append_length,
          getD_set_self _ _ _ _ (by simp [List.length_append]),
          getD_append_length, getD_append_length, hslot]
        exact grade_pipeline_content img0 style
    · push_neg at hwc hvc
      refine ⟨?_, ?_, ?_, ?_⟩
      · simp only [gradeHeapRun]
        rw [if_neg (by tauto), if_neg (by tauto)]
        dsimp only
        rw [List.getD_append _ _ _ _
            (by simp [List.length_append, List.length_set]; omega),
          List.getD_append _ _ _ _
            (by simp [List.length_append, List.length_set]; omega),
          getD_set_ne _ _ _ _ _ (by omega),
          List.getD_append _ _ _ _ hi]
      · simp only [gradeHeapRun]
        rw [if_neg (by tauto), if_neg (by tauto)]
        dsimp only
        simp [List.length_append, List.length_set]
      · simp only [gradeHeapRun]
        rw [if_neg (by tauto), if_neg (by tauto)]
        dsimp only
        simp only [List.length_append, List.length_set, List.length_cons,
          List.length_nil]
        omega
      · simp only [gradeHeapRun]
        rw [if_neg (by tauto), if_neg (by tauto)]
        dsimp only
        rw [getD_append_length, getD_append_length,
          getD_set_self _ _ _ _ (by simp [List.length_append]),
          getD_append_length, hslot]
        exact grade_pipeline_content_default img0 style hwc.1 hwc.2 hvc.1 hvc.2

theorem color_grade_no_mutation_witness :
    ((0 : ℕ) < [bufOfImg testImgA].length
      ∧ [bufOfImg testImgA].getD 0 defaultBuf = bufOfImg testImgA)
  ∧ (gradeHeapRun [bufOfImg testImgA] 0 "warm").1.getD 0 defaultBuf
      = [bufOfImg testImgA].getD 0 defaultBuf :=
  ⟨⟨by norm_num, rfl⟩,
   (color_grade_no_mutation [bufOfImg testImgA] 0 "warm" testImgA
     (by norm_num) rfl).1⟩
